import Mathlib

/-!
Shallow embedding of srgn's scoping and transformation engine.

Sources embedded:
- `src/scoping/mod.rs`: `Scope`, `ScopedViewBuilder` (`new`, `build`, `explode`,
  `explode_from_ranges`), `ScopedView` (`map`, `Display`).
- `src/actions/mod.rs`: the `Action` contract (`act`, `map`).
- `src/stages/upper/mod.rs`: `UpperStage::substitute`.

Modelling conventions: a Rust `&str`/`String` is a `List Char`; byte ranges are
modelled as code-point ranges (the claims under study are about range ordering,
overlap and pruning, which are index arithmetic and identical for bytes and code
points). A Rust panic (out-of-bounds or inverted slice `&s[a..b]` with `a > b`)
is modelled as `Option.none`; infallible code is total.
-/

namespace Srgn

abbrev Str := List Char

/-- `Scope<'a, &'a str>` from `src/scoping/mod.rs`: `In` is in scope for
processing, `Out` is out of scope (immutable, view-only). -/
inductive ROScope where
  | In (s : Str)
  | Out (s : Str)
deriving DecidableEq, Repr

/-- The underlying slice of a read-only scope
(`impl From<&ROScope> for &str`). -/
def ROScope.str : ROScope → Str
  | .In s => s
  | .Out s => s

/-- `ROScope::is_empty`: true iff the underlying slice is empty. -/
def ROScope.isEmptyScope (sc : ROScope) : Bool := sc.str.isEmpty

/-- Rust's `Cow<'a, str>`: a borrowed slice or an owned string. The
borrowed/owned distinction carries no bytes semantics but mirrors the source's
`RWScope` payload so that post-action ownership is statable. -/
inductive Cow where
  | borrowed (s : Str)
  | owned (s : Str)
deriving DecidableEq, Repr

/-- The string under a `Cow`. -/
def Cow.str : Cow → Str
  | .borrowed s => s
  | .owned s => s

/-- `Scope<'a, Cow<'a, str>>` from `src/scoping/mod.rs`: the read-write scope
used by the built view. -/
inductive RWScope where
  | In (c : Cow)
  | Out (s : Str)
deriving DecidableEq, Repr

/-- The underlying slice of a read-write scope
(`impl From<&RWScope> for &str`). -/
def RWScope.str : RWScope → Str
  | .In c => c.str
  | .Out s => s

/-- `ScopedViewBuilder` from `src/scoping/mod.rs`: an ordered sequence of
read-only scopes over one input. -/
structure ScopedViewBuilder where
  scopes : List ROScope
deriving DecidableEq, Repr

/-- `ScopedView` from `src/scoping/mod.rs`: the built, mutable form. -/
structure ScopedView where
  scopes : List RWScope
deriving DecidableEq, Repr

/-- `ScopedViewBuilder::new`: a single `In` scope covering the whole input. -/
def ScopedViewBuilder.new (input : Str) : ScopedViewBuilder :=
  ⟨[ROScope.In input]⟩

/-- `impl From<ROScope> for RWScope`: `In(s) ↦ In(Cow::Borrowed(s))`,
`Out(s) ↦ Out(s)`. -/
def ROScope.toRW : ROScope → RWScope
  | .In s => .In (.borrowed s)
  | .Out s => .Out s

/-- `ScopedViewBuilder::build`: convert every scope read-only → read-write. -/
def ScopedViewBuilder.build (b : ScopedViewBuilder) : ScopedView :=
  ⟨b.scopes.map ROScope.toRW⟩

/-- The loop body of `ScopedViewBuilder::explode`: empty scopes are skipped,
an `In(s)` is replaced by the exploder's scopes with empty ones retained out,
an `Out` is forwarded (the source's explicit `Scope::Out("")` arm is dead code
behind the `is_empty` skip). -/
def explodeScopes (e : Str → List ROScope) : List ROScope → List ROScope
  | [] => []
  | sc :: rest =>
    if sc.isEmptyScope then explodeScopes e rest
    else
      match sc with
      | .In s => ((e s).filter fun t => !t.isEmptyScope) ++ explodeScopes e rest
      | .Out s => .Out s :: explodeScopes e rest

/-- `ScopedViewBuilder::explode`, for exploders that are themselves total
(e.g. `explode_from_scoper` with a scoper, or the identity exploder). -/
def ScopedViewBuilder.explode (b : ScopedViewBuilder)
    (e : Str → ScopedViewBuilder) : ScopedViewBuilder :=
  ⟨explodeScopes (fun s => (e s).scopes) b.scopes⟩

/-- `ScopedViewBuilder::explode` for exploders that may panic (`none`); the
same loop as `explodeScopes`, with failure propagated. -/
def explodeScopesOpt (e : Str → Option (List ROScope)) :
    List ROScope → Option (List ROScope)
  | [] => some []
  | sc :: rest =>
    if sc.isEmptyScope then explodeScopesOpt e rest
    else
      match sc with
      | .In s => do
        let ns ← e s
        let tl ← explodeScopesOpt e rest
        pure ((ns.filter fun t => !t.isEmptyScope) ++ tl)
      | .Out s => do
        let tl ← explodeScopesOpt e rest
        pure (.Out s :: tl)

/-- A half-open range `start..end` into a fragment. -/
abbrev Rng := Nat × Nat

/-- Rust slice `&s[a..b]`: `none` models the panic when `a > b` or
`b > s.len()`. -/
def slice? (s : Str) (a b : Nat) : Option Str :=
  if a ≤ b ∧ b ≤ s.length then some ((s.drop a).take (b - a)) else none

/-- One insertion step of a stable sort by range start (ties keep input
order: the element being inserted arrived earlier, so it goes before the
first strictly greater start and after equal starts is wrong — it goes
before the first start it is `≤` to, keeping it ahead of later-arriving
equal keys is not needed since it is inserted into the already sorted
suffix of *later* elements, hence `≤`). -/
def insertByStart (r : Rng) : List Rng → List Rng
  | [] => [r]
  | x :: xs => if r.1 ≤ x.1 then r :: x :: xs else x :: insertByStart r xs

/-- itertools' `sorted_by_key(|r| r.start)`: a stable sort by start.
Insertion sort inserting each element into the sorted list of its
successors is stable, so it is extensionally the source's stable sort. -/
def sortByStart : List Rng → List Rng
  | [] => []
  | r :: rs => insertByStart r (sortByStart rs)

/-- The cursor walk of `explode_from_ranges`: for each range `[a,b)` emit
`Out(s[lastEnd..a])` then `In(s[a..b])`, finally `Out(s[lastEnd..])` if the
cursor did not reach the end. `none` models the slice panics. -/
def walkRanges (s : Str) : Nat → List Rng → Option (List ROScope)
  | lastEnd, [] =>
    some (if lastEnd < s.length then [ROScope.Out (s.drop lastEnd)] else [])
  | lastEnd, (a, b) :: rest => do
    let o ← slice? s lastEnd a
    let i ← slice? s a b
    let tl ← walkRanges s b rest
    pure (.Out o :: .In i :: tl)

/-- The closure inside `ScopedViewBuilder::explode_from_ranges`: sort the
ranges by start (stable), walk the fragment, retain non-empty scopes. -/
def rangesToScopes (s : Str) (ranges : List Rng) : Option (List ROScope) :=
  (walkRanges s 0 (sortByStart ranges)).map fun l =>
    l.filter fun t => !t.isEmptyScope

/-- `ScopedViewBuilder::explode_from_ranges`. -/
def ScopedViewBuilder.explodeFromRanges (b : ScopedViewBuilder)
    (exploder : Str → List Rng) : Option ScopedViewBuilder :=
  (explodeScopesOpt (fun s => rangesToScopes s (exploder s)) b.scopes).map
    fun l => ⟨l⟩

/-- Concatenation of the underlying bytes of read-only scopes. -/
def concatScopes : List ROScope → Str
  | [] => []
  | sc :: rest => sc.str ++ concatScopes rest

/-- Concatenation of the underlying bytes of read-write scopes. -/
def concatRW : List RWScope → Str
  | [] => []
  | sc :: rest => sc.str ++ concatRW rest

/-- `impl Display for ScopedView`: write every scope's underlying slice in
order. -/
def ScopedView.render (v : ScopedView) : Str := concatRW v.scopes

/-- The loop body of `ScopedView::map`: each `In` is replaced by
`In(Cow::Owned(f(s)))`, each `Out` is only appended (left untouched). -/
def mapScopes (f : Str → Str) : List RWScope → List RWScope
  | [] => []
  | .In c :: rest => .In (.owned (f c.str)) :: mapScopes f rest
  | .Out s :: rest => .Out s :: mapScopes f rest

/-- `ScopedView::map`. -/
def ScopedView.map (v : ScopedView) (f : Str → Str) : ScopedView :=
  ⟨mapScopes f v.scopes⟩

/-- Concatenation of the bytes of `Out` scopes only. -/
def outBytes : List RWScope → Str
  | [] => []
  | .In _ :: rest => outBytes rest
  | .Out s :: rest => s ++ outBytes rest

/-- Rust `str::replace(char, &str)` with a one-character pattern: each
occurrence of the character is replaced by the replacement string. -/
def replaceChar (s : Str) (c0 : Char) (r : Str) : Str :=
  s.flatMap fun c => if c = c0 then r else [c]

/-- Rust std's `char::to_uppercase` (an external library function), embedded
on the character ranges the code under test exercises: ASCII lowercase
letters, Latin-1 lowercase letters U+00E0..U+00FE (excluding the division
sign U+00F7), `ß` (which std uppercases to `SS`), and the basic Cyrillic
lowercase block U+0430..U+044F; every other character maps to itself. -/
def charToUppercase (c : Char) : List Char :=
  if c = 'ß' then ['S', 'S']
  else if 'a' ≤ c ∧ c ≤ 'z' then [Char.ofNat (c.toNat - 32)]
  else if 'à' ≤ c ∧ c ≤ 'þ' ∧ c ≠ '÷' then [Char.ofNat (c.toNat - 32)]
  else if 'а' ≤ c ∧ c ≤ 'я' then [Char.ofNat (c.toNat - 32)]
  else [c]

/-- Rust `str::to_uppercase`, per-character on the ranges above. -/
def toUppercaseStr (s : Str) : Str := s.flatMap charToUppercase

/-- `UpperStage::substitute` from `src/stages/upper/mod.rs`:
`input.replace('ß', "ẞ").to_uppercase()`. -/
def UpperStage.substitute (input : Str) : Str :=
  toUppercaseStr (replaceChar input 'ß' ['ẞ'])

/-- The explosion step as the spec's words describe it (for refinement
comparison with `explodeScopes`): "`Out(_)` — forward unchanged (except the
empty-string case, which is dropped). `In(s)` — invoke the exploder on `s`;
append its non-empty scopes to the new list." Note there is no empty check
on `In` before invoking the exploder. -/
def explodeScopesClaimed (e : Str → List ROScope) : List ROScope → List ROScope
  | [] => []
  | .In s :: rest =>
    ((e s).filter fun t => !t.isEmptyScope) ++ explodeScopesClaimed e rest
  | .Out s :: rest =>
    if s.isEmpty then explodeScopesClaimed e rest
    else .Out s :: explodeScopesClaimed e rest

/-- Well-formedness of a range list for the cursor walk: starting from cursor
`lb`, every range `[a,b)` satisfies `lb ≤ a ≤ b ≤ len` with the cursor moving
to `b`. Exactly the ranges on which no slice in the walk panics. -/
def rangesOk (len : Nat) : Nat → List Rng → Bool
  | _, [] => true
  | lb, (a, b) :: rest =>
    decide (lb ≤ a) && decide (a ≤ b) && decide (b ≤ len) && rangesOk len b rest

/-- One insertion step of the sort the spec's words describe: start
ascending, ties broken by longer range first (for refinement comparison
with `insertByStart`). -/
def insertSpec (r : Rng) : List Rng → List Rng
  | [] => [r]
  | x :: xs =>
    if r.1 < x.1 ∨ (r.1 = x.1 ∧ x.2 - x.1 ≤ r.2 - r.1) then r :: x :: xs
    else x :: insertSpec r xs

/-- The sort the spec's words describe: by start ascending, ties longer
first. -/
def sortSpec : List Rng → List Rng
  | [] => []
  | r :: rs => insertSpec r (sortSpec rs)

/-- The range-to-scope conversion as the spec's words describe it (for
refinement comparison with `rangesToScopes`): "Sort ranges by start
ascending. Ties broken by longer range first; empty ranges discarded." -/
def rangesToScopesSpec (s : Str) (ranges : List Rng) : Option (List ROScope) :=
  (walkRanges s 0 (sortSpec (ranges.filter fun r => decide (r.1 < r.2)))).map
    fun l => l.filter fun t => !t.isEmptyScope

/-- `ScoperBuildError` from `src/scoping/mod.rs`. The payloads of
`RegexError`/`LiteralError` live in `src/scoping/regex.rs` and
`src/scoping/literal.rs`, which are not under src/, so they are modelled
as bare variants. -/
inductive ScoperBuildError where
  | EmptyScope
  | RegexError
  | LiteralError
deriving DecidableEq, Repr

/-- Modelled from the spec: the literal scoper of `src/scoping/literal.rs`
is not under src/. It carries a fixed string to match (spec §4.4). -/
structure LiteralScoper where
  needle : Str
deriving DecidableEq, Repr

/-- Modelled from the spec: the literal scoper's constructor is not under
src/. Construction fails with `EmptyScope` when "the configuration yields a
scoper that matches nothing useful (e.g., empty regex, empty literal)". -/
def buildLiteral (needle : Str) : Except ScoperBuildError LiteralScoper :=
  if needle = [] then .error .EmptyScope else .ok ⟨needle⟩

/-- Modelled from the spec: the literal scoper's match search is not under
src/. "Non-overlapping matches found by a linear scan (left-to-right, no
overlap)" (spec §4.4): at each position test whether the needle is the next
`needle.length` characters; on a match emit the range and resume after it. -/
def findMatches (needle : Str) (pos : Nat) (hay : Str) : List Rng :=
  match hay with
  | [] => []
  | c :: rest =>
    if needle = (c :: rest).take needle.length then
      (pos, pos + needle.length) ::
        findMatches needle (pos + needle.length) (rest.drop (needle.length - 1))
    else findMatches needle (pos + 1) rest
termination_by hay.length
decreasing_by
  all_goals simp [List.length_drop]
  all_goals omega

/-- Modelled from the spec: the literal scoper's `scope` (its
`ScopedViewBuildStep` impl is not under src/) marks each match of the fixed
string as `In` via the builder's range explosion. -/
def LiteralScoper.scope (sc : LiteralScoper) (input : Str) :
    Option ScopedViewBuilder :=
  (ScopedViewBuilder.new input).explodeFromRanges fun s =>
    findMatches sc.needle 0 s

/-- Modelled from the spec: a scoper backed by a range-producing function,
the bridge the spec describes for range scopers and language scopers alike
(§4.2: "the caller supplies a function that, given a fragment, returns byte
ranges to mark as In"; §4.5 step 4: the remaining capture byte ranges
"pass to explode_from_ranges"). Its `ScopedViewBuildStep` impl is not under
src/. Construction of such a scoper cannot fail. -/
structure RangeScoper where
  ranges : Str → List Rng

/-- Modelled from the spec: the range-backed scoper's `scope` marks the
supplied ranges as `In` via the builder's range explosion
(`explode_from_ranges` of `src/scoping/mod.rs`). -/
def RangeScoper.scope (sc : RangeScoper) (input : Str) :
    Option ScopedViewBuilder :=
  (ScopedViewBuilder.new input).explodeFromRanges sc.ranges

/-! ### Helper lemmas shared across claims -/

theorem isEmptyScope_iff (sc : ROScope) : sc.isEmptyScope = true ↔ sc.str = [] := by
  simp [ROScope.isEmptyScope, List.isEmpty_iff]

theorem concatScopes_append (l₁ l₂ : List ROScope) :
    concatScopes (l₁ ++ l₂) = concatScopes l₁ ++ concatScopes l₂ := by
  induction l₁ with
  | nil => simp [concatScopes]
  | cons sc rest ih => simp [concatScopes, ih]

theorem concatScopes_filter_nonempty (l : List ROScope) :
    concatScopes (l.filter fun t => !t.isEmptyScope) = concatScopes l := by
  induction l with
  | nil => rfl
  | cons sc rest ih =>
    by_cases h : sc.isEmptyScope
    · have hs : sc.str = [] := (isEmptyScope_iff sc).mp h
      simp [List.filter_cons, h, concatScopes, ih, hs]
    · simp [List.filter_cons, h, concatScopes, ih]

theorem explodeScopes_concat (e : Str → List ROScope)
    (he : ∀ s, concatScopes (e s) = s) (l : List ROScope) :
    concatScopes (explodeScopes e l) = concatScopes l := by
  induction l with
  | nil => rfl
  | cons sc rest ih =>
    by_cases h : sc.isEmptyScope
    · have hs : sc.str = [] := (isEmptyScope_iff sc).mp h
      simp [explodeScopes, h, concatScopes, ih, hs]
    · cases sc with
      | In s =>
        simp [explodeScopes, h, concatScopes_append,
          concatScopes_filter_nonempty, he, ih, concatScopes, ROScope.str]
      | Out s =>
        simp [explodeScopes, h, concatScopes, ih, ROScope.str]

theorem explodeScopes_nonempty (e : Str → List ROScope) (l : List ROScope) :
    ∀ sc ∈ explodeScopes e l, sc.isEmptyScope = false := by
  induction l with
  | nil => intro sc h; simp [explodeScopes] at h
  | cons hd rest ih =>
    intro sc h
    cases hd with
    | In s =>
      by_cases hh : (ROScope.In s).isEmptyScope
      · rw [explodeScopes.eq_def] at h
        simp only [if_pos hh] at h
        exact ih sc h
      · rw [explodeScopes.eq_def] at h
        simp only [if_neg hh, List.mem_append, List.mem_filter] at h
        rcases h with ⟨_, hf⟩ | hr
        · simpa using hf
        · exact ih sc hr
    | Out s =>
      by_cases hh : (ROScope.Out s).isEmptyScope
      · rw [explodeScopes.eq_def] at h
        simp only [if_pos hh] at h
        exact ih sc h
      · rw [explodeScopes.eq_def] at h
        simp only [if_neg hh] at h
        rcases List.mem_cons.mp h with rfl | hr
        · simpa [ROScope.isEmptyScope] using hh
        · exact ih sc hr

theorem toRW_str (sc : ROScope) : sc.toRW.str = sc.str := by
  cases sc <;> rfl

theorem concatRW_map_toRW (l : List ROScope) :
    concatRW (l.map ROScope.toRW) = concatScopes l := by
  induction l with
  | nil => rfl
  | cons sc rest ih => simp [concatRW, concatScopes, ih, toRW_str]

theorem build_render_eq (b : ScopedViewBuilder) :
    b.build.render = concatScopes b.scopes := by
  simp [ScopedViewBuilder.build, ScopedView.render, concatRW_map_toRW]

theorem foldl_explode_concat (es : List (Str → ScopedViewBuilder))
    (he : ∀ e ∈ es, ∀ frag, concatScopes (e frag).scopes = frag) :
    ∀ b : ScopedViewBuilder,
      concatScopes ((es.foldl ScopedViewBuilder.explode b).scopes)
        = concatScopes b.scopes := by
  induction es with
  | nil => intro b; rfl
  | cons e rest ih =>
    intro b
    have he' : ∀ e' ∈ rest, ∀ frag, concatScopes (e' frag).scopes = frag :=
      fun e' h => he e' (List.mem_cons_of_mem _ h)
    rw [List.foldl_cons, ih he']
    exact explodeScopes_concat _ (he e (List.mem_cons_self _ _)) _

/-- C1: for every input `s` and every sequence of exploders satisfying the
scoper contract (each output concatenates to its fragment), the concatenation
of the builder's scope bytes equals `s` at every stage of construction, and
rendering the built view without actions returns exactly `s`. -/
theorem c1_concatenation (s : Str) (es : List (Str → ScopedViewBuilder))
    (he : ∀ e ∈ es, ∀ frag, concatScopes (e frag).scopes = frag) :
    (∀ pre suf, es = pre ++ suf →
      concatScopes
        ((pre.foldl ScopedViewBuilder.explode (ScopedViewBuilder.new s)).scopes)
        = s) ∧
    (es.foldl ScopedViewBuilder.explode (ScopedViewBuilder.new s)).build.render
      = s := by
  have hnew : concatScopes (ScopedViewBuilder.new s).scopes = s := by
    simp [ScopedViewBuilder.new, concatScopes, ROScope.str]
  constructor
  · intro pre suf hsplit
    have hpre : ∀ e ∈ pre, ∀ frag, concatScopes (e frag).scopes = frag := by
      intro e h frag
      exact he e (hsplit ▸ List.mem_append_left suf h) frag
    rw [foldl_explode_concat pre hpre, hnew]
  · rw [build_render_eq, foldl_explode_concat es he, hnew]

/-- C1 witness: at input `"ab"` with the single identity-like exploder, the
built view renders back to `"ab"`. -/
theorem c1_concatenation_witness :
    (([fun frag => ScopedViewBuilder.mk [ROScope.In frag]] :
        List (Str → ScopedViewBuilder)).foldl ScopedViewBuilder.explode
      (ScopedViewBuilder.new "ab".data)).build.render = "ab".data :=
  (c1_concatenation "ab".data _
    (by
      intro e h frag
      simp only [List.mem_singleton] at h
      subst h
      simp [concatScopes, ROScope.str])).2

/-! ### C5: action mapping -/

theorem mapScopes_eq_map (f : Str → Str) (l : List RWScope) :
    mapScopes f l = l.map fun sc =>
      match sc with
      | .In c => RWScope.In (.owned (f c.str))
      | .Out s => .Out s := by
  induction l with
  | nil => rfl
  | cons sc rest ih => cases sc <;> simp [mapScopes, ih]

theorem outBytes_mapScopes (f : Str → Str) (l : List RWScope) :
    outBytes (mapScopes f l) = outBytes l := by
  induction l with
  | nil => rfl
  | cons sc rest ih => cases sc <;> simp [mapScopes, outBytes, ih]

/-- C5: `ScopedView::map` replaces each `In(s)` scope, in order, with
`In(Cow::Owned(f(s)))`, leaves every `Out` scope untouched, preserves the
number and order of scopes, and after any sequence of `map` applications the
concatenation of all `Out` bytes equals that of the pre-action view. -/
theorem c5_map_frame :
    (∀ (v : ScopedView) (f : Str → Str),
      (v.map f).scopes = v.scopes.map (fun sc =>
        match sc with
        | .In c => RWScope.In (.owned (f c.str))
        | .Out s => .Out s) ∧
      (v.map f).scopes.length = v.scopes.length) ∧
    (∀ (v : ScopedView) (fs : List (Str → Str)),
      outBytes (fs.foldl ScopedView.map v).scopes = outBytes v.scopes) := by
  constructor
  · intro v f
    refine ⟨mapScopes_eq_map f v.scopes, ?_⟩
    rw [ScopedView.map, mapScopes_eq_map]
    simp
  · intro v fs
    induction fs generalizing v with
    | nil => rfl
    | cons f rest ih =>
      rw [List.foldl_cons, ih]
      exact outBytes_mapScopes f v.scopes

/-- C10: for the empty input, `ScopedViewBuilder::new("")` is exactly one
`In("")` scope; with no explosion, `build` retains it (as a borrowed
read-write scope), and rendering the view gives the empty string. -/
theorem c10_empty_input :
    (ScopedViewBuilder.new ([] : Str)).scopes = [ROScope.In []] ∧
    (ScopedViewBuilder.new ([] : Str)).build.scopes
      = [RWScope.In (Cow.borrowed [])] ∧
    (ScopedViewBuilder.new ([] : Str)).build.render = [] :=
  ⟨rfl, rfl, rfl⟩

/-- C9: with the whole input in scope (no scoper), the upper action turns
`"aAäÄöÖüÜßẞ!"` into `"AAÄÄÖÖÜÜẞẞ!"` and `"你好! привет!"` into
`"你好! ПРИВЕТ!"`; in particular `ß` is mapped to `ẞ`. -/
theorem c9_upper_examples :
    (((ScopedViewBuilder.new "aAäÄöÖüÜßẞ!".data).build.map
        UpperStage.substitute).render = "AAÄÄÖÖÜÜẞẞ!".data) ∧
    (((ScopedViewBuilder.new "你好! привет!".data).build.map
        UpperStage.substitute).render = "你好! ПРИВЕТ!".data) ∧
    UpperStage.substitute "ß".data = "ẞ".data := by
  refine ⟨?_, ?_, ?_⟩ <;> decide

/-! ### C4: non-empty scopes of a built view -/

theorem foldl_explode_nonempty (es : List (Str → ScopedViewBuilder)) :
    ∀ b : ScopedViewBuilder, (∀ sc ∈ b.scopes, sc.isEmptyScope = false) →
      ∀ sc ∈ (es.foldl ScopedViewBuilder.explode b).scopes,
        sc.isEmptyScope = false := by
  induction es with
  | nil => intro b hb; exact hb
  | cons e rest ih =>
    intro b _hb
    rw [List.foldl_cons]
    exact ih (b.explode e) (explodeScopes_nonempty _ _)

/-- C4 counterexample: the claim fails at the empty input with no builder
operations — the built view of `new("")` contains a scope whose underlying
string is empty. -/
theorem c4_nonempty_counterexample :
    ((ScopedViewBuilder.new ([] : Str)).build.scopes.any
      fun sc => sc.str.isEmpty) = true := by decide

/-- C4 (amended): for every *non-empty* input string and every sequence of
explosion operations, the scope list of the built view contains no scope
whose underlying string is empty. -/
theorem c4_nonempty_amended (s : Str) (es : List (Str → ScopedViewBuilder))
    (hs : s ≠ []) :
    ∀ sc ∈ (es.foldl ScopedViewBuilder.explode
      (ScopedViewBuilder.new s)).build.scopes, sc.str ≠ [] := by
  intro sc hmem
  rw [ScopedViewBuilder.build] at hmem
  obtain ⟨sc0, h0, rfl⟩ := List.mem_map.mp hmem
  rw [toRW_str]
  have hb : ∀ t ∈ (ScopedViewBuilder.new s).scopes, t.isEmptyScope = false := by
    intro t ht
    rw [ScopedViewBuilder.new] at ht
    rcases List.mem_singleton.mp ht with rfl
    simpa [ROScope.isEmptyScope, ROScope.str, List.isEmpty_iff] using hs
  have hne := foldl_explode_nonempty es _ hb sc0 h0
  intro hempty
  rw [← isEmptyScope_iff sc0] at hempty
  rw [hne] at hempty
  exact Bool.noConfusion hempty

/-- C4 witness: at input `"a"` with no operations, the single built scope is
non-empty. -/
theorem c4_nonempty_witness :
    (RWScope.In (Cow.borrowed "a".data)).str ≠ [] :=
  c4_nonempty_amended "a".data [] (by decide) _ (by decide)

/-! ### C6: characterisation of explode -/

theorem explodeScopes_eq_claimed (e : Str → List ROScope) :
    ∀ l : List ROScope, (∀ s, ROScope.In s ∈ l → s ≠ []) →
      explodeScopes e l = explodeScopesClaimed e l := by
  intro l
  induction l with
  | nil => intro _; rfl
  | cons hd rest ih =>
    intro hIn
    have hrest : ∀ s, ROScope.In s ∈ rest → s ≠ [] :=
      fun s h => hIn s (List.mem_cons_of_mem _ h)
    cases hd with
    | In s =>
      have hs : s ≠ [] := hIn s (List.mem_cons_self _ _)
      have hne : (ROScope.In s).isEmptyScope = false := by
        simpa [ROScope.isEmptyScope, ROScope.str, List.isEmpty_iff] using hs
      rw [explodeScopes.eq_def]
      simp only [hne, Bool.false_eq_true, if_false]
      rw [explodeScopesClaimed, ih hrest]
    | Out s =>
      by_cases hh : (ROScope.Out s).isEmptyScope
      · have hs : s.isEmpty = true := hh
        rw [explodeScopes.eq_def]
        simp only [if_pos hh]
        rw [explodeScopesClaimed, if_pos hs, ih hrest]
      · have hs : ¬ s.isEmpty = true := hh
        rw [explodeScopes.eq_def]
        simp only [if_neg hh]
        rw [explodeScopesClaimed, if_neg hs, ih hrest]

/-- C6 counterexample: the claim fails on a builder containing an empty
`In` scope — the code skips it without invoking the exploder, so the
exploder's (non-empty) output on `""` does not appear, while the claim's
description keeps it. -/
theorem c6_explode_counterexample :
    (ScopedViewBuilder.explode ⟨[ROScope.In []]⟩
      fun _ => ⟨[ROScope.In "x".data]⟩).scopes = [] ∧
    explodeScopesClaimed (fun _ => [ROScope.In "x".data]) [ROScope.In []]
      = [ROScope.In "x".data] := ⟨rfl, rfl⟩

/-- C6 (amended): for every builder whose `In` scopes are all non-empty,
`explode` forwards every non-empty `Out` scope unchanged, drops empty `Out`
scopes, and replaces every `In(s)` by the exploder's output on `s` with its
empty scopes removed, preserving source order; an empty `In` scope is
dropped without invoking the exploder. -/
theorem c6_explode_amended (e : Str → ScopedViewBuilder)
    (b : ScopedViewBuilder) (hIn : ∀ s, ROScope.In s ∈ b.scopes → s ≠ []) :
    (b.explode e).scopes
      = explodeScopesClaimed (fun s => (e s).scopes) b.scopes :=
  explodeScopes_eq_claimed _ b.scopes hIn

/-- C6 witness: on a concrete builder with non-empty scopes, the code's
explosion agrees with the claim's description. -/
theorem c6_explode_witness :
    (ScopedViewBuilder.explode ⟨[ROScope.In "a".data, ROScope.Out "b".data]⟩
      ScopedViewBuilder.new).scopes
      = explodeScopesClaimed (fun s => (ScopedViewBuilder.new s).scopes)
          [ROScope.In "a".data, ROScope.Out "b".data] :=
  c6_explode_amended ScopedViewBuilder.new
    ⟨[ROScope.In "a".data, ROScope.Out "b".data]⟩
    (by
      intro s hs
      simp only [List.mem_cons, List.not_mem_nil, or_false] at hs
      rcases hs with h | h
      · injection h with h'
        subst h'
        decide
      · exact ROScope.noConfusion h)

/-! ### C8: the identity exploder -/

theorem explodeScopes_new (l : List ROScope) :
    explodeScopes (fun s => (ScopedViewBuilder.new s).scopes) l
      = l.filter fun sc => !sc.isEmptyScope := by
  induction l with
  | nil => rfl
  | cons hd rest ih =>
    by_cases hh : hd.isEmptyScope
    · cases hd with
      | In s =>
        rw [explodeScopes.eq_def]
        simp only [if_pos hh]
        rw [ih, List.filter_cons]
        simp [hh]
      | Out s =>
        rw [explodeScopes.eq_def]
        simp only [if_pos hh]
        rw [ih, List.filter_cons]
        simp [hh]
    · cases hd with
      | In s =>
        rw [explodeScopes.eq_def]
        simp only [if_neg hh]
        rw [ih, List.filter_cons]
        have : (ROScope.In s).isEmptyScope = false := by
          simpa using hh
        simp [ScopedViewBuilder.new, List.filter_cons, this]
      | Out s =>
        rw [explodeScopes.eq_def]
        simp only [if_neg hh]
        rw [ih, List.filter_cons]
        have : (ROScope.Out s).isEmptyScope = false := by
          simpa using hh
        simp [this]

/-- C8 counterexample: the claim's "same built view as not applying it"
fails at the empty input — the identity explosion prunes the empty seed
scope, so the built views differ. -/
theorem c8_identity_counterexample :
    ((ScopedViewBuilder.new ([] : Str)).explode ScopedViewBuilder.new).build
      ≠ (ScopedViewBuilder.new ([] : Str)).build := by decide

/-- C8 (amended): applying the identity exploder (one `In(s)` for any `s`)
leaves any builder's scope list unchanged up to removal of empty scopes;
for a non-empty input, scoping the seed builder with the identity scoper
produces the same built view as not applying it. -/
theorem c8_identity_amended :
    (∀ b : ScopedViewBuilder,
      (b.explode ScopedViewBuilder.new).scopes
        = b.scopes.filter fun sc => !sc.isEmptyScope) ∧
    ∀ s : Str, s ≠ [] →
      ((ScopedViewBuilder.new s).explode ScopedViewBuilder.new).build
        = (ScopedViewBuilder.new s).build := by
  constructor
  · intro b
    exact explodeScopes_new b.scopes
  · intro s hs
    have h1 : ((ScopedViewBuilder.new s).explode ScopedViewBuilder.new)
        = ScopedViewBuilder.new s := by
      have hside := explodeScopes_new (ScopedViewBuilder.new s).scopes
      have hne : (ROScope.In s).isEmptyScope = false := by
        simpa [ROScope.isEmptyScope, ROScope.str, List.isEmpty_iff] using hs
      rw [ScopedViewBuilder.explode]
      rw [show (ScopedViewBuilder.new s).scopes = [ROScope.In s] from rfl] at hside ⊢
      rw [hside, List.filter_cons]
      simp [hne, ScopedViewBuilder.new]
    rw [h1]

/-- C8 witness: at input `"a"`, identity-scoping then building equals
building directly. -/
theorem c8_identity_witness :
    ((ScopedViewBuilder.new "a".data).explode ScopedViewBuilder.new).build
      = (ScopedViewBuilder.new "a".data).build :=
  c8_identity_amended.2 "a".data (by decide)

/-! ### Range walk lemmas (C2, C3, C7) -/

theorem rangesOk_cons {len lb a b : Nat} {rest : List Rng} :
    rangesOk len lb ((a, b) :: rest) = true ↔
      lb ≤ a ∧ a ≤ b ∧ b ≤ len ∧ rangesOk len b rest = true := by
  simp [rangesOk, Bool.and_eq_true, decide_eq_true_eq, and_assoc]

theorem rangesOk_mono_lb {len lb lb' : Nat} {l : List Rng} (h : lb ≤ lb')
    (hok : rangesOk len lb' l = true) : rangesOk len lb l = true := by
  cases l with
  | nil => rfl
  | cons hd rest =>
    obtain ⟨a, b⟩ := hd
    rw [rangesOk_cons] at hok ⊢
    exact ⟨le_trans h hok.1, hok.2⟩

theorem slice?_some {s : Str} {a b : Nat} (h1 : a ≤ b) (h2 : b ≤ s.length) :
    slice? s a b = some ((s.drop a).take (b - a)) := by
  simp [slice?, h1, h2]

theorem drop_take_drop (s : Str) (a b : Nat) (h : a ≤ b) :
    (s.drop a).take (b - a) ++ s.drop b = s.drop a := by
  have h2 : (s.drop a).drop (b - a) = s.drop b := by
    rw [List.drop_drop]
    congr 1
    omega
  rw [← h2, List.take_append_drop]

theorem walkRanges_ok (s : Str) :
    ∀ (l : List Rng) (lb : Nat), rangesOk s.length lb l = true →
      ∃ out, walkRanges s lb l = some out ∧ concatScopes out = s.drop lb := by
  intro l
  induction l with
  | nil =>
    intro lb _
    by_cases h : lb < s.length
    · exact ⟨[ROScope.Out (s.drop lb)], by simp [walkRanges, h],
        by simp [concatScopes, ROScope.str]⟩
    · refine ⟨[], by simp [walkRanges, h], ?_⟩
      have hle : s.length ≤ lb := Nat.le_of_not_lt h
      simp [concatScopes, List.drop_eq_nil_of_le hle]
  | cons hd rest ih =>
    obtain ⟨a, b⟩ := hd
    intro lb hok
    rw [rangesOk_cons] at hok
    obtain ⟨h1, h2, h3, h4⟩ := hok
    obtain ⟨tl, htl, hct⟩ := ih b h4
    have ha : a ≤ s.length := le_trans h2 h3
    refine ⟨ROScope.Out ((s.drop lb).take (a - lb)) ::
        ROScope.In ((s.drop a).take (b - a)) :: tl, ?_, ?_⟩
    · rw [walkRanges]
      simp [slice?_some h1 ha, slice?_some h2 h3, htl]
    · simp only [concatScopes, ROScope.str]
      rw [hct, drop_take_drop s a b h2, drop_take_drop s lb a h1]

theorem sortByStart_eq_of_ok (len : Nat) :
    ∀ (l : List Rng) (lb : Nat), rangesOk len lb l = true →
      sortByStart l = l := by
  intro l
  induction l with
  | nil => intro _ _; rfl
  | cons hd rest ih =>
    obtain ⟨a, b⟩ := hd
    intro lb hok
    rw [rangesOk_cons] at hok
    obtain ⟨h1, h2, h3, h4⟩ := hok
    rw [sortByStart, ih b h4]
    cases rest with
    | nil => rfl
    | cons hd2 tl =>
      obtain ⟨a2, b2⟩ := hd2
      rw [rangesOk_cons] at h4
      have haa : a ≤ a2 := le_trans h2 h4.1
      rw [insertByStart]
      simp [haa]

theorem explodeFromRanges_new (s : Str) (f : Str → List Rng)
    (hok : rangesOk s.length 0 (f s) = true) :
    ∃ scopes, (ScopedViewBuilder.new s).explodeFromRanges f = some ⟨scopes⟩ ∧
      concatScopes scopes = s ∧ ∀ sc ∈ scopes, sc.isEmptyScope = false := by
  by_cases hs : s = []
  · subst hs
    refine ⟨[], rfl, rfl, ?_⟩
    intro sc h
    exact absurd h (List.not_mem_nil sc)
  · have hsort := sortByStart_eq_of_ok s.length (f s) 0 hok
    obtain ⟨out, hw, hct⟩ := walkRanges_ok s (f s) 0 hok
    have hr : rangesToScopes s (f s)
        = some (out.filter fun t => !t.isEmptyScope) := by
      rw [rangesToScopes, hsort, hw]
      rfl
    have hne : (ROScope.In s).isEmptyScope = false := by
      simpa [ROScope.isEmptyScope, ROScope.str, List.isEmpty_iff] using hs
    refine ⟨out.filter fun t => !t.isEmptyScope, ?_, ?_, ?_⟩
    · rw [ScopedViewBuilder.explodeFromRanges]
      have hmain : explodeScopesOpt (fun s' => rangesToScopes s' (f s'))
          [ROScope.In s] = some (out.filter fun t => !t.isEmptyScope) := by
        rw [explodeScopesOpt.eq_def]
        simp [hne, hr, explodeScopesOpt]
      rw [show (ScopedViewBuilder.new s).scopes = [ROScope.In s] from rfl,
        hmain]
      rfl
    · rw [concatScopes_filter_nonempty]
      simpa using hct
    · intro sc h
      simpa using (List.mem_filter.mp h).2

theorem findMatches_ok (needle : Str) (hne : needle ≠ []) :
    ∀ (n : Nat) (hay : Str) (pos : Nat), hay.length ≤ n →
      rangesOk (pos + hay.length) pos (findMatches needle pos hay) = true := by
  intro n
  induction n with
  | zero =>
    intro hay pos hlen
    have hhay : hay = [] := List.eq_nil_of_length_eq_zero (Nat.le_zero.mp hlen)
    subst hhay
    rw [findMatches]
    rfl
  | succ n ih =>
    intro hay pos hlen
    cases hay with
    | nil =>
      rw [findMatches]
      rfl
    | cons c rest =>
      have hn1 : 1 ≤ needle.length := by
        cases needle with
        | nil => exact absurd rfl hne
        | cons _ _ => simp
      by_cases hm : needle = (c :: rest).take needle.length
      · have hlen2 : needle.length ≤ rest.length + 1 := by
          have hcl := congrArg List.length hm
          rw [List.length_take] at hcl
          simp at hcl
          omega
        rw [findMatches, if_pos hm]
        simp only [List.length_cons]
        rw [rangesOk_cons]
        refine ⟨le_refl pos, Nat.le_add_right _ _, by omega, ?_⟩
        have hdln : (rest.drop (needle.length - 1)).length ≤ n := by
          simp only [List.length_cons] at hlen
          simp [List.length_drop]
          omega
        have hrec := ih (rest.drop (needle.length - 1)) (pos + needle.length)
          hdln
        have heq : pos + needle.length + (rest.drop (needle.length - 1)).length
            = pos + (rest.length + 1) := by
          simp [List.length_drop]
          omega
        rw [heq] at hrec
        exact hrec
      · rw [findMatches, if_neg hm]
        simp only [List.length_cons]
        have hrl : rest.length ≤ n := by
          simp only [List.length_cons] at hlen
          omega
        have hrec := ih rest (pos + 1) hrl
        have heq : pos + 1 + rest.length = pos + (rest.length + 1) := by omega
        rw [heq] at hrec
        exact rangesOk_mono_lb (Nat.le_succ pos) hrec

/-! ### C2: overlap handling of explode_from_ranges -/

/-- C2 counterexample: two overlapping ranges (`3 < 5`) are not discarded;
the walk attempts the inverted slice `&s[5..3]`, a panic (`none`). -/
theorem c2_overlap_counterexample :
    (ScopedViewBuilder.new "abcdefgh".data).explodeFromRanges
      (fun _ => [(0, 5), (3, 8)]) = none := by decide

/-- C2 (amended): overlapping ranges are not discarded — after the stable
sort by start, a range starting before the previous range's end makes the
cursor walk take an inverted slice, which panics (modelled as `none`). For
in-bounds, non-overlapping range lists (`rangesOk`), the explosion succeeds
and its scopes are non-empty and concatenate to the input. -/
theorem c2_overlap_amended (s : Str) (ranges : List Rng)
    (h : rangesOk s.length 0 ranges = true) :
    (((ScopedViewBuilder.new s).explodeFromRanges fun _ => ranges).isSome
      = true) ∧
    ∀ b', ((ScopedViewBuilder.new s).explodeFromRanges fun _ => ranges)
        = some b' →
      concatScopes b'.scopes = s ∧ ∀ sc ∈ b'.scopes, sc.isEmptyScope = false := by
  obtain ⟨scopes, hsome, hcat, hnz⟩ :=
    explodeFromRanges_new s (fun _ => ranges) h
  constructor
  · rw [hsome]
    rfl
  · intro b' hb'
    rw [hsome] at hb'
    injection hb' with h'
    subst h'
    exact ⟨hcat, hnz⟩

/-- C2 witness: a concrete in-bounds non-overlapping range list succeeds. -/
theorem c2_overlap_witness :
    rangesOk ("abcde".data).length 0 [(1, 3)] = true ∧
    (((ScopedViewBuilder.new "abcde".data).explodeFromRanges
      fun _ => [(1, 3)]).isSome = true) :=
  ⟨by decide, (c2_overlap_amended "abcde".data [(1, 3)] (by decide)).1⟩

/-! ### C3: processing order of the supplied ranges -/

theorem insertByStart_perm (r : Rng) (l : List Rng) :
    (insertByStart r l).Perm (r :: l) := by
  induction l with
  | nil => exact List.Perm.refl _
  | cons x xs ih =>
    rw [insertByStart]
    by_cases h : r.1 ≤ x.1
    · rw [if_pos h]
    · rw [if_neg h]
      exact (ih.cons x).trans (List.Perm.swap r x xs)

theorem sortByStart_perm (l : List Rng) : (sortByStart l).Perm l := by
  induction l with
  | nil => exact List.Perm.refl _
  | cons r rs ih =>
    rw [sortByStart]
    exact (insertByStart_perm r (sortByStart rs)).trans (ih.cons r)

theorem insertByStart_pairwise (r : Rng) (l : List Rng)
    (h : l.Pairwise fun u v => u.1 ≤ v.1) :
    (insertByStart r l).Pairwise fun u v => u.1 ≤ v.1 := by
  induction l with
  | nil => simp [insertByStart]
  | cons x xs ih =>
    rw [insertByStart]
    rcases List.pairwise_cons.mp h with ⟨hx, hxs⟩
    by_cases hle : r.1 ≤ x.1
    · rw [if_pos hle]
      refine List.pairwise_cons.mpr ⟨?_, h⟩
      intro v hv
      rcases List.mem_cons.mp hv with rfl | hv'
      · exact hle
      · exact le_trans hle (hx v hv')
    · rw [if_neg hle]
      refine List.pairwise_cons.mpr ⟨?_, ih hxs⟩
      intro v hv
      have hv2 : v ∈ r :: xs := (insertByStart_perm r xs).mem_iff.mp hv
      rcases List.mem_cons.mp hv2 with rfl | hv3
      · omega
      · exact hx v hv3

theorem sortByStart_pairwise (l : List Rng) :
    (sortByStart l).Pairwise fun u v => u.1 ≤ v.1 := by
  induction l with
  | nil => simp [sortByStart]
  | cons r rs ih =>
    rw [sortByStart]
    exact insertByStart_pairwise r _ ih

theorem insertByStart_filter_key (r : Rng) (l : List Rng) (k : Nat) :
    (insertByStart r l).filter (fun x => decide (x.1 = k))
      = (r :: l).filter fun x => decide (x.1 = k) := by
  induction l with
  | nil => rfl
  | cons x xs ih =>
    rw [insertByStart]
    by_cases hle : r.1 ≤ x.1
    · rw [if_pos hle]
    · rw [if_neg hle]
      by_cases hr : r.1 = k
      · have hx : ¬ x.1 = k := by omega
        simp [List.filter_cons, hr, hx, ih]
      · simp [List.filter_cons, hr, ih]

theorem sortByStart_filter_key (l : List Rng) (k : Nat) :
    (sortByStart l).filter (fun x => decide (x.1 = k))
      = l.filter fun x => decide (x.1 = k) := by
  induction l with
  | nil => rfl
  | cons r rs ih =>
    rw [sortByStart, insertByStart_filter_key]
    simp [List.filter_cons, ih]

/-- C3 counterexample: on equal starts the sort is stable (keeps input
order) and empty ranges are *not* discarded up front — with the empty range
second, the code panics (`none`), while the claim's described processing
(longer-first ties, empty ranges discarded) succeeds. -/
theorem c3_tie_order_counterexample :
    rangesToScopes "abcdef".data [(2, 5), (2, 2)] = none ∧
    rangesToScopesSpec "abcdef".data [(2, 5), (2, 2)]
      = some [ROScope.Out "ab".data, ROScope.In "cde".data,
          ROScope.Out "f".data] := ⟨by decide, by decide⟩

/-- C3 (amended): the supplied ranges are processed sorted by start
ascending with ties between equal starts kept in input order (the sort is a
stable permutation), not longer-first; empty ranges are not discarded before
the walk — the empty scopes they emit are pruned afterwards (so no empty
scope survives), as the concrete empty-range run shows. -/
theorem c3_tie_order_amended :
    (∀ ranges : List Rng,
      (sortByStart ranges).Perm ranges ∧
      ((sortByStart ranges).Pairwise fun u v => u.1 ≤ v.1) ∧
      ∀ k, (sortByStart ranges).filter (fun x => decide (x.1 = k))
        = ranges.filter fun x => decide (x.1 = k)) ∧
    (∀ (s : Str) (ranges : List Rng) (out : List ROScope),
      rangesToScopes s ranges = some out →
      ∀ sc ∈ out, sc.isEmptyScope = false) ∧
    rangesToScopes "abcdef".data [(2, 2), (2, 5)]
      = some [ROScope.Out "ab".data, ROScope.In "cde".data,
          ROScope.Out "f".data] := by
  refine ⟨?_, ?_, by decide⟩
  · intro ranges
    exact ⟨sortByStart_perm ranges, sortByStart_pairwise ranges,
      fun k => sortByStart_filter_key ranges k⟩
  · intro s ranges out h sc hsc
    rw [rangesToScopes] at h
    rcases Option.map_eq_some'.mp h with ⟨l, -, rfl⟩
    simpa using (List.mem_filter.mp hsc).2

/-- C3 witness: the sort at a concrete tie, and non-emptiness of a concrete
output scope. -/
theorem c3_tie_order_witness :
    (sortByStart [(2, 5), (2, 2)]).Perm [(2, 5), (2, 2)] ∧
    ROScope.isEmptyScope (ROScope.In "cde".data) = false :=
  ⟨(c3_tie_order_amended.1 [(2, 5), (2, 2)]).1,
   c3_tie_order_amended.2.1 "abcdef".data [(2, 2), (2, 5)]
     [ROScope.Out "ab".data, ROScope.In "cde".data, ROScope.Out "f".data]
     (by decide) (ROScope.In "cde".data) (by decide)⟩

/-! ### C7: errors only at construction time -/

/-- C7 counterexample: the claim's blanket runtime infallibility fails — a
range-backed scoper, constructed without any possibility of error, whose
ranges overlap (as tree-sitter captures can) panics at scope time: the
`explode_from_ranges` walk takes an inverted slice. -/
theorem c7_error_handling_counterexample :
    (RangeScoper.mk fun _ => [(0, 4), (2, 6)]).scope "overlap!".data
      = none := by decide

/-- C7 (amended): errors of the enumerated kinds arise at scoper
construction time — the empty literal fails with
`ScoperBuildError::EmptyScope` — and once constructed, an action's `act` is
infallible for every input (acting on the whole input always renders
`act(input)`); but a constructed scoper's scope operation is infallible only
when its ranges never overlap: the literal scoper's linear-scan matches are
in-bounds and non-overlapping, so its scope succeeds on every input, while
overlapping ranges panic (see the counterexample). -/
theorem c7_error_handling :
    buildLiteral [] = Except.error ScoperBuildError.EmptyScope ∧
    (∀ (needle : Str) (sc : LiteralScoper),
      buildLiteral needle = Except.ok sc →
      ∀ input : Str, (sc.scope input).isSome = true) ∧
    ∀ (f : Str → Str) (input : Str),
      (((ScopedViewBuilder.new input).build).map f).render = f input := by
  refine ⟨rfl, ?_, ?_⟩
  · intro needle sc h input
    rw [buildLiteral] at h
    by_cases hne : needle = []
    · rw [if_pos hne] at h
      exact Except.noConfusion h
    · rw [if_neg hne] at h
      injection h with h'
      subst h'
      show ((ScopedViewBuilder.new input).explodeFromRanges fun s =>
        findMatches needle 0 s).isSome = true
      have hok : rangesOk input.length 0 (findMatches needle 0 input)
          = true := by
        have hfm := findMatches_ok needle hne input.length input 0 le_rfl
        simpa using hfm
      obtain ⟨scopes, hsome, -, -⟩ :=
        explodeFromRanges_new input (fun s => findMatches needle 0 s) hok
      rw [hsome]
      rfl
  · intro f input
    simp [ScopedViewBuilder.new, ScopedViewBuilder.build, ROScope.toRW,
      ScopedView.map, mapScopes, ScopedView.render, concatRW, Cow.str,
      RWScope.str]

/-- C7 witness: the literal scoper for `"b"` is constructed successfully and
scopes `"abc"` without failing, and acting on a whole concrete input renders
the action's output. -/
theorem c7_error_handling_witness :
    buildLiteral "b".data = Except.ok (LiteralScoper.mk "b".data) ∧
    ((LiteralScoper.mk "b".data).scope "abc".data).isSome = true ∧
    (((ScopedViewBuilder.new "ß".data).build).map UpperStage.substitute).render
      = "ẞ".data :=
  ⟨by rfl, c7_error_handling.2.1 "b".data ⟨"b".data⟩ (by rfl) "abc".data,
    by rw [c7_error_handling.2.2 UpperStage.substitute "ß".data]; decide⟩

end Srgn
